import Mathlib

/-!
# Verification of the type-level AST-definition toolkit

The repository under verification is a TypeScript *type-level* program
(`ast-definition.ts`): it computes, during type checking, resolved AST node
shapes from a declarative definition (`ASTDefinition`), infers `parent`
types, expands the meta-names `"Node"`/`"Statement"`/`"Expression"`, and
merges a base definition with a list of enhancements (`Extends`).

This file gives a shallow embedding of that computation.  TypeScript types
are modelled by the syntactic universe `Ty` below; each type alias of the
source becomes a Lean function over `Ty`.  Union types are lists of parts
that are kept flattened and duplicate-free (mirroring the checker's union
normalisation); `never` is the empty union.  The recursive expansion of
node shapes (which the checker performs lazily, and which diverges on
cyclic definitions) is made total with an explicit fuel parameter; fuel
exhaustion is marked by `Ty.limit` (the checker's recursion abort).
Modelling notes are attached to each definition.
-/

/-- Syntactic universe of the TypeScript types manipulated by the source.

* `prim s`     – an opaque named type (`string`, `boolean`, `Range`, `Location`, …);
* `lit s`      – the string-literal type `"s"`;
* `undefTy`      – `undefined`;  `nullTy` – `null`;
* `refObj p`   – the reference marker object `{ $ref: p }` (`Def.NodeRef`);
* `arrOf ro e` – the array type `e[]` (readonly when `ro = true`);
* `union l`    – a union type; the empty union is `never`;
* `objTy ps`   – an object type with declared properties `ps`;
* `indexSig v` – the index-signature object `{ [key: string]: v }`;
* `inter l`    – an intersection type;
* `limit`      – stands for the checker aborting a too-deep recursive
  expansion (only produced when the evaluation fuel runs out). -/
inductive Ty where
  | prim (name : String)
  | lit (s : String)
  | undefTy
  | nullTy
  | refObj (payload : Ty)
  | arrOf (ro : Bool) (elem : Ty)
  | union (parts : List Ty)
  | objTy (props : List (String × Ty))
  | indexSig (value : Ty)
  | inter (parts : List Ty)
  | limit
deriving Repr

mutual

/-- Structural boolean equality on `Ty` (written by hand because the
automatic derivation does not handle the nested lists). -/
def tyBeq : Ty → Ty → Bool
  | .prim a, .prim b => a == b
  | .lit a, .lit b => a == b
  | .undefTy, .undefTy => true
  | .nullTy, .nullTy => true
  | .refObj a, .refObj b => tyBeq a b
  | .arrOf r a, .arrOf r' b => r == r' && tyBeq a b
  | .union a, .union b => tyListBeq a b
  | .objTy a, .objTy b => tyPropsBeq a b
  | .indexSig a, .indexSig b => tyBeq a b
  | .inter a, .inter b => tyListBeq a b
  | .limit, .limit => true
  | _, _ => false

/-- Pointwise equality of lists of types. -/
def tyListBeq : List Ty → List Ty → Bool
  | [], [] => true
  | a :: as, b :: bs => tyBeq a b && tyListBeq as bs
  | _, _ => false

/-- Pointwise equality of property lists. -/
def tyPropsBeq : List (String × Ty) → List (String × Ty) → Bool
  | [], [] => true
  | (k, v) :: as, (k', v') :: bs => k == k' && tyBeq v v' && tyPropsBeq as bs
  | _, _ => false

end

set_option maxHeartbeats 1600000 in
/-- `tyBeq` (with its two list companions) decides equality. -/
theorem tyBeq_iff_eq :
    (∀ a b : Ty, tyBeq a b = true ↔ a = b) ∧
    (∀ as bs : List (String × Ty), tyPropsBeq as bs = true ↔ as = bs) ∧
    (∀ as bs : List Ty, tyListBeq as bs = true ↔ as = bs) := by
  refine tyBeq.mutual_induct
    (fun a b => tyBeq a b = true ↔ a = b)
    (fun as bs => tyPropsBeq as bs = true ↔ as = bs)
    (fun as bs => tyListBeq as bs = true ↔ as = bs)
    ?_ ?_ ?_ ?_ ?_ ?_ ?_ ?_ ?_ ?_ ?_ ?_ ?_ ?_ ?_ ?_ ?_ ?_
  · intro a b; simp [tyBeq]
  · intro a b; simp [tyBeq]
  · simp [tyBeq]
  · simp [tyBeq]
  · intro a b ih; simp [tyBeq, ih]
  · intro r a r' b ih; simp [tyBeq, ih]
  · intro a b ih; simp [tyBeq, ih]
  · intro a b ih; simp [tyBeq, ih]
  · intro a b ih; simp [tyBeq, ih]
  · intro a b ih; simp [tyBeq, ih]
  · simp [tyBeq]
  · intro t x hprim hlit hundef hnull href harr hunion hobj hidx hinter hlimit
    cases t <;> cases x <;>
      first
        | exact (hprim _ _ rfl rfl).elim
        | exact (hlit _ _ rfl rfl).elim
        | exact (hundef rfl rfl).elim
        | exact (hnull rfl rfl).elim
        | exact (href _ _ rfl rfl).elim
        | exact (harr _ _ _ _ rfl rfl).elim
        | exact (hunion _ _ rfl rfl).elim
        | exact (hobj _ _ rfl rfl).elim
        | exact (hidx _ _ rfl rfl).elim
        | exact (hinter _ _ rfl rfl).elim
        | exact (hlimit rfl rfl).elim
        | simp [tyBeq]
  · simp [tyListBeq]
  · intro a as b bs ih1 ih2; simp [tyListBeq, ih1, ih2]
  · intro t x hnil hcons
    cases t <;> cases x <;>
      first
        | exact (hnil rfl rfl).elim
        | exact (hcons _ _ _ _ rfl rfl).elim
        | simp [tyListBeq]
  · simp [tyPropsBeq]
  · intro k v as k' v' bs ih1 ih2; simp [tyPropsBeq, ih1, ih2]
  · intro t x hnil hcons
    cases t <;> cases x <;>
      first
        | exact (hnil rfl rfl).elim
        | exact (hcons _ _ _ _ _ _ rfl rfl).elim
        | simp [tyPropsBeq]

instance : DecidableEq Ty := fun a b =>
  decidable_of_iff (tyBeq a b = true) (tyBeq_iff_eq.1 a b)

/-- First-occurrence duplicate removal (the checker's union dedup keeps the
first occurrence).  Written with an accumulator so that it is structurally
recursive and hence evaluates inside the kernel. -/
def dedupAux {α : Type} [DecidableEq α] (seen : List α) : List α → List α
  | [] => []
  | a :: l => if a ∈ seen then dedupAux seen l else a :: dedupAux (a :: seen) l

/-- Remove duplicates keeping first occurrences. -/
def dedupKeep {α : Type} [DecidableEq α] (l : List α) : List α :=
  dedupAux [] l

theorem mem_dedupAux {α : Type} [DecidableEq α] (a : α) (seen l : List α) :
    a ∈ dedupAux seen l ↔ a ∈ l ∧ a ∉ seen := by
  induction l generalizing seen with
  | nil => simp [dedupAux]
  | cons b l ih =>
    by_cases hb : b ∈ seen
    · rw [dedupAux, if_pos hb, ih]
      constructor
      · rintro ⟨h1, h2⟩; exact ⟨List.mem_cons_of_mem _ h1, h2⟩
      · rintro ⟨h1, h2⟩
        rcases List.mem_cons.mp h1 with rfl | h1
        · exact absurd hb h2
        · exact ⟨h1, h2⟩
    · rw [dedupAux, if_neg hb]
      simp only [List.mem_cons, ih, not_or]
      constructor
      · rintro (rfl | ⟨h1, h2, h3⟩)
        · exact ⟨.inl rfl, hb⟩
        · exact ⟨.inr h1, h3⟩
      · rintro ⟨rfl | h1, h2⟩
        · exact .inl rfl
        · by_cases hab : a = b
          · exact .inl hab
          · exact .inr ⟨h1, hab, h2⟩

theorem mem_dedupKeep {α : Type} [DecidableEq α] (a : α) (l : List α) :
    a ∈ dedupKeep l ↔ a ∈ l := by
  simp [dedupKeep, mem_dedupAux]

theorem dedupAux_eq_self {α : Type} [DecidableEq α] (seen l : List α)
    (h : l.Nodup) (hd : ∀ a ∈ l, a ∉ seen) : dedupAux seen l = l := by
  induction l generalizing seen with
  | nil => rfl
  | cons b l ih =>
    rw [dedupAux, if_neg (hd b (.head _))]
    rw [ih (b :: seen) h.of_cons]
    intro a ha
    simp only [List.mem_cons, not_or]
    exact ⟨fun hab => (List.nodup_cons.mp h).1 (hab ▸ ha), hd a (.tail _ ha)⟩

theorem dedupKeep_eq_self {α : Type} [DecidableEq α] (l : List α)
    (h : l.Nodup) : dedupKeep l = l :=
  dedupAux_eq_self [] l h (by simp)

/-- Association-list lookup, modelling property access `T[K]` on object
types (object types cannot declare a key twice; the first binding wins). -/
def alookup {α : Type} : List (String × α) → String → Option α
  | [], _ => none
  | (k, v) :: l, k' => if k' = k then some v else alookup l k'

theorem alookup_map_self {α : Type} (ks : List String) (f : String → α)
    (k : String) :
    alookup (ks.map fun p => (p, f p)) k =
      if k ∈ ks then some (f k) else none := by
  induction ks with
  | nil => simp [alookup]
  | cons a l ih =>
    by_cases h : k = a
    · subst h; simp [alookup]
    · simp [alookup, h, ih, Ne.symm h]

theorem alookup_isSome_iff_mem {α : Type} (l : List (String × α)) (k : String) :
    (alookup l k).isSome ↔ k ∈ l.map Prod.fst := by
  induction l with
  | nil => simp [alookup]
  | cons a l ih =>
    by_cases h : k = a.1
    · simp [alookup, h]
    · simp [alookup, h, ih]

/-- A union of string-literal name types (`TType extends Key` arguments and
the `statementType` / `expressionType` fields).  The empty list is `never`. -/
abbrev Names := List String

/-- A node definition: property name to property type (`TDef["nodes"][T]`). -/
abbrev NodeDef := List (String × Ty)

/-- A `nodes` map: node-type name to node definition (`TDef["nodes"]`). -/
abbrev NodesMap := List (String × NodeDef)

/-- The `ASTDefinition` interface: `nodes`, `statementType`, `expressionType`.
The two designator fields are unions of string literals. -/
structure ASTDefinition where
  nodes : NodesMap
  statementType : Names
  expressionType : Names
deriving Repr, DecidableEq

/-- The `ASTEnhancement` type, `Partial<ASTDefinition>`: every field may be
absent.  In the source an absent field makes the corresponding
`Prop<..., TDefault>` lookup produce its default. -/
structure ASTEnhancement where
  nodes : Option NodesMap
  statementType : Option Names
  expressionType : Option Names
deriving Repr, DecidableEq

/-- The keys of `TDef["nodes"]`. -/
def nodeKeys (d : ASTDefinition) : Names :=
  d.nodes.map Prod.fst

/-- The parts of a union type (a non-union type is its own single part). -/
def unionParts : Ty → List Ty
  | .union l => l
  | t => [t]

/-- Build a union type the way the checker normalises unions: flatten one
level, drop duplicates keeping first occurrences, and collapse a singleton
to its unique part.  The empty union is `never`. -/
def mkUnion (ts : List Ty) : Ty :=
  match dedupKeep (ts.flatMap unionParts) with
  | [t] => t
  | l => .union l

/-- The three special names of `ResolveNodeType`. -/
def metaNames : Names := ["Node", "Statement", "Expression"]

/-- One member of `ResolveNodeType`'s conditional: `"Node"` becomes all node
keys, `"Statement"`/`"Expression"` become the respective designator field,
anything else stands for itself. -/
def resolveName1 (d : ASTDefinition) (t : String) : Names :=
  if t = "Node" then nodeKeys d
  else if t = "Statement" then d.statementType
  else if t = "Expression" then d.expressionType
  else [t]

/-- `ResolveNodeType<TType, TDef>`: the conditional distributes over the
union `TType`; the result is intersected with `string & keyof TDef["nodes"]`
(modelled by the filter) and normalised as a union of literals.
The `IsAny<TType>` branch of the source is not modelled: the model has no
`any` type, and no claim quantifies over it. -/
def ResolveNodeType (tt : Names) (d : ASTDefinition) : Names :=
  dedupKeep (((tt.flatMap (resolveName1 d)).filter (fun t => t ∈ nodeKeys d)))

/-- `NodeRef<T>` with a union-of-literals argument, as written in node
definitions: `{ $ref: T }`. -/
def NodeRef (tt : Names) : Ty :=
  .refObj (mkUnion (tt.map .lit))

/-- The source's payload test `T extends Key` (`Key = string | number |
symbol`).  Among the types the universe can represent, the Key-assignable
ones are the string-literal types and the primitives `string`, `number`
and `symbol` (which the model writes `Ty.prim "string"` etc.); every
other representable payload (`boolean`, objects, arrays, …) fails the
test. -/
def isKeyTy : Ty → Bool
  | .lit _ => true
  | .prim n => n == "string" || n == "number" || n == "symbol"
  | _ => false

/-- The names contributed by one Key-assignable part of `TType` inside
`ResolveNodeType`, after the final `string & keyof TDef["nodes"] & _`
intersection is applied by the caller's key filter:

* a string literal goes through the conditional (meta-names expand,
  anything else stands for itself);
* the full `string` type also falls into the conditional's otherwise
  branch (`string` is not assignable to any of the three literal
  meta-names) and the `& keyof TDef["nodes"]` intersection then cuts it
  down to all node keys;
* `number` and `symbol` are annihilated by the `& string` intersection. -/
def resolveKeyName1 (d : ASTDefinition) : Ty → Names
  | .lit s => resolveName1 d s
  | .prim n => if n = "string" then nodeKeys d else []
  | _ => []

/-- `ResolveNodeType<TType, TDef>` for a `TType` given as a union of
Key-assignable parts — the general form reached from reference payloads,
where `TType` need not be a union of literals. -/
def ResolveNodeTypeK (tt : List Ty) (d : ASTDefinition) : Names :=
  dedupKeep ((tt.flatMap (resolveKeyName1 d)).filter (fun t => t ∈ nodeKeys d))

/-- `Node<TType, TDef>` distributes over the union `TType`; every function
below that needs the node of a referenced name takes a single-name resolver
`R : String → Ty` standing for that distributed `Node` at the current
unfolding depth (`NodeAt d fuel` once fuel is introduced).
`ResolveNode<TType, TDef>` for a union of Key-assignable parts. -/
def ResolveNodeK (R : String → Ty) (d : ASTDefinition) (tt : List Ty) : Ty :=
  mkUnion ((ResolveNodeTypeK tt d).map R)

/-- One part of `ResolveNodeRef<TMaybeNodeRef, TDef>`: on `{ $ref: T }` the
inner conditional `T extends Key ? ResolveNode<T, TDef> : TMaybeNodeRef`
distributes over the payload union; a Key-assignable part (a literal, or
the full `string`/`number`/`symbol` type) is resolved, and any other part
keeps the whole original reference object.  A non-reference part is
returned as-is. -/
def ResolveNodeRef1 (R : String → Ty) (d : ASTDefinition) (v : Ty) : Ty :=
  match v with
  | .refObj p => mkUnion ((unionParts p).map fun m =>
      if isKeyTy m then ResolveNodeK R d [m] else .refObj p)
  | _ => v

/-- `ResolveNodeRef<TMaybeNodeRef, TDef>`, distributed over the outer union. -/
def ResolveNodeRefW (R : String → Ty) (d : ASTDefinition) (v : Ty) : Ty :=
  mkUnion ((unionParts v).map (ResolveNodeRef1 R d))

/-- One part of `NodeProperty<TValue, TDef>`: a mutable array has its
elements resolved and becomes `readonly ...[]` (a readonly array does not
match `(infer TElement)[]` and falls through to `ResolveNodeRef` which
passes it unchanged); anything else goes through `ResolveNodeRef`. -/
def NodeProperty1 (R : String → Ty) (d : ASTDefinition) : Ty → Ty
  | .arrOf false e => .arrOf true (ResolveNodeRefW R d e)
  | v => ResolveNodeRef1 R d v

/-- `NodeProperty<TValue, TDef>`, distributed over the union `TValue`. -/
def NodePropertyW (R : String → Ty) (d : ASTDefinition) (v : Ty) : Ty :=
  mkUnion ((unionParts v).map (NodeProperty1 R d))

/-- Candidates of `TMaybeNodeRef extends { $ref: infer TType } ? TType :
never` for one union part. -/
def refPayloadParts : Ty → List Ty
  | .refObj p => unionParts p
  | _ => []

/-- Candidates of `TMaybeNodeRef extends { $ref: infer TType }[] ? TType :
never` for one union part: a mutable array whose element parts are all
`$ref` objects yields the union of their payloads. -/
def arrRefPayloadParts : Ty → List Ty
  | .arrOf false e =>
    if (unionParts e).all (fun m => match m with | .refObj _ => true | _ => false)
    then (unionParts e).flatMap refPayloadParts
    else []
  | _ => []

/-- `NodeRefType<TMaybeNodeRef>`: the `TType`s of `NodeRef<TType>` or
`NodeRef<TType>[]`; `Extract<..., Key>` keeps every Key-assignable payload
part (string literals as well as the full `string`/`number`/`symbol`
types). -/
def NodeRefType (v : Ty) : List Ty :=
  dedupKeep (((unionParts v).flatMap refPayloadParts
    ++ (unionParts v).flatMap arrRefPayloadParts).filter isKeyTy)

/-- `ChildNodeType<TNodeDef, TDef>`: all node types referenced from any
property of the given node definition, resolved (through the general,
Key-part form of `ResolveNodeType`, since a payload may be the full
`string` type). -/
def ChildNodeType (shape : NodeDef) (d : ASTDefinition) : Names :=
  ResolveNodeTypeK (shape.flatMap (fun pv => NodeRefType pv.2)) d

/-- `ParentNodeType<TType, TDef>`: the node-type names whose definitions
reference `TType` (the mapped type over `keyof TDef["nodes"]`, keeping `P`
exactly when `TType extends ChildNodeType<...>`, then `Extract<..., string>`). -/
def ParentNodeType (t : String) (d : ASTDefinition) : Names :=
  (dedupKeep (nodeKeys d)).filter
    (fun k => t ∈ ChildNodeType ((alookup d.nodes k).getD []) d)

/-- `NeverToNull<T>`: `never` becomes `null`, anything else is unchanged. -/
def NeverToNull : Ty → Ty
  | .union [] => .nullTy
  | t => t

/-- `ParentNode<TType, TDef> = NeverToNull<Node<ParentNodeType<...>, TDef>>`. -/
def ParentNodeW (R : String → Ty) (d : ASTDefinition) (t : String) : Ty :=
  NeverToNull (mkUnion ((ParentNodeType t d).map R))

/-- `NodeCommonKey = keyof NodeCommon<any, any>`. -/
def NodeCommonKey : Names := ["range", "loc", "parent"]

/-- The `NodeCommon<TDef, TType>` object: `range`, `loc` and the computed
`parent`. -/
def NodeCommonW (R : String → Ty) (d : ASTDefinition) (t : String) : Ty :=
  .objTy [("range", .prim "Range"), ("loc", .prim "Location"),
          ("parent", ParentNodeW R d t)]

/-- The key set of `NodeBody`: `Exclude<"type" | keyof shape, NodeCommonKey>`
(union normalisation keeps the first occurrence of `"type"`). -/
def NodeBodyKeys (shape : NodeDef) : Names :=
  (dedupKeep ("type" :: shape.map Prod.fst)).filter (fun p => p ∉ NodeCommonKey)

/-- The `NodeBody<TDef, TType>` object: declared properties are resolved
with `NodeProperty`; the synthetic `"type"` key (when the shape does not
declare one) is the node-type name as a literal. -/
def NodeBodyW (R : String → Ty) (d : ASTDefinition) (t : String)
    (shape : NodeDef) : Ty :=
  .objTy ((NodeBodyKeys shape).map fun p =>
    (p, match alookup shape p with
        | some v => NodePropertyW R d v
        | none => .lit t))

/-- `NodeFallback = { [key: string]: undefined }`. -/
def NodeFallback : Ty := .indexSig .undefTy

/-- The `{} & "UNKNOWN TYPE:" & TType` marker produced by `Node` for a name
that is not a key of `nodes`. -/
def unknownType (t : String) : Ty :=
  .inter [.objTy [], .lit "UNKNOWN TYPE:", .lit t]

/-- `Node<TType, TDefinition>` for a single name: the intersection of the
common fields, the resolved body and the fallback index signature when the
name is a key of `nodes`, and the unknown-type marker otherwise.  The fuel
argument bounds the recursive expansion (`Ty.limit` on exhaustion); it is
spent only when a known node is actually expanded. -/
def NodeAt (d : ASTDefinition) : Nat → String → Ty
  | 0, t =>
    match alookup d.nodes t with
    | none => unknownType t
    | some _ => .limit
  | fuel + 1, t =>
    match alookup d.nodes t with
    | none => unknownType t
    | some shape =>
      .inter [NodeCommonW (fun s => NodeAt d fuel s) d t,
              NodeBodyW (fun s => NodeAt d fuel s) d t shape,
              NodeFallback]

/-- `Node<TType, TDefinition>` for a union of names (the conditional in the
source distributes over `TType`). -/
def Node (d : ASTDefinition) (fuel : Nat) (tt : Names) : Ty :=
  mkUnion (tt.map (NodeAt d fuel))

/-- `ResolveNode<TType, TDef> = Node<ResolveNodeType<TType, TDef>, TDef>`. -/
def ResolveNode (d : ASTDefinition) (fuel : Nat) (tt : Names) : Ty :=
  Node d fuel (ResolveNodeType tt d)

/-- `ResolveNodeRef` with the resolver instantiated at the given fuel. -/
def ResolveNodeRef (d : ASTDefinition) (fuel : Nat) (v : Ty) : Ty :=
  ResolveNodeRefW (fun s => NodeAt d fuel s) d v

/-- `NodeProperty` with the resolver instantiated at the given fuel. -/
def NodeProperty (d : ASTDefinition) (fuel : Nat) (v : Ty) : Ty :=
  NodePropertyW (fun s => NodeAt d fuel s) d v

/-- `ParentNode` with the resolver instantiated at the given fuel. -/
def ParentNode (d : ASTDefinition) (fuel : Nat) (t : String) : Ty :=
  ParentNodeW (fun s => NodeAt d fuel s) d t

/-- Declared-property lookup on an object type part. -/
def objDeclared? : Ty → String → Option Ty
  | .objTy props, k => alookup props k
  | _, _ => none

/-- The value type of an index-signature part. -/
def indexValue? : Ty → Option Ty
  | .indexSig v => some v
  | _ => none

/-- Intersection smart constructor (a singleton is its unique part). -/
def mkInter : List Ty → Ty
  | [t] => t
  | l => .inter l

/-- TypeScript member access `T[k]` on the shapes produced by `Node`:
on an intersection, declared properties of the parts win (and are
intersected when several parts declare the key); an index signature applies
only to keys no part declares; `none` models "no such member" (a type
error at the access site). -/
def tyMember? (t : Ty) (k : String) : Option Ty :=
  match t with
  | .inter parts =>
    match parts.filterMap (fun p => objDeclared? p k) with
    | [] =>
      match parts.filterMap indexValue? with
      | [] => none
      | vs => some (mkInter vs)
    | vs => some (mkInter vs)
  | .objTy props => alookup props k
  | .indexSig v => some v
  | _ => none

/-- `Extract<U, { type: T }>`: keep the union parts whose `type` member is
the literal `T`. -/
def extractByTag (u : Ty) (t : String) : Ty :=
  mkUnion ((unionParts u).filter
    (fun p => decide (tyMember? p "type" = some (.lit t))))

/-- `ExtractNode<TDefinition, TType, TFilter>` with the default filter
`TFilter = any` (for which the outer `Extract<..., any>` is the identity):
a meta-name resolves through `ResolveNode`; any other name selects from the
full node union by the `type` discriminant. -/
def ExtractNode (d : ASTDefinition) (fuel : Nat) (t : String) : Ty :=
  if t ∈ metaNames then ResolveNode d fuel [t]
  else extractByTag (ResolveNode d fuel ["Node"]) t

/-- `Prop<TObject, "nodes", {}, {}>` for an optional enhancement (`At0` …
`At3` produce `never` past the end of the tuple, and `Prop` of a missing
field yields the default `{}`). -/
def propNodes (e : Option ASTEnhancement) : NodesMap :=
  (e.bind (·.nodes)).getD []

/-- `Prop<TObject, "statementType", string>` for an optional enhancement
(default `never`, the empty union). -/
def propStatementType (e : Option ASTEnhancement) : Names :=
  (e.bind (·.statementType)).getD []

/-- `Prop<TObject, "expressionType", string>` for an optional enhancement. -/
def propExpressionType (e : Option ASTEnhancement) : Names :=
  (e.bind (·.expressionType)).getD []

/-- `UniteArray<T>`: `A[] | B[]` becomes `(A | B)[]`.  `[T] extends [any[]]`
holds exactly when every union part is a mutable array (readonly arrays are
not assignable to `any[]`), and then `T[0]` is the union of the element
types; otherwise `T` is unchanged. -/
def UniteArray (t : Ty) : Ty :=
  if (unionParts t).all (fun m => match m with | .arrOf false _ => true | _ => false)
  then .arrOf false (mkUnion ((unionParts t).map
    (fun m => match m with | .arrOf _ e => e | _ => m)))
  else t

/-- `MergeNodeProperties<T, U, V, W, X>`: a mapped type over the union of
all property keys; each property is the union of the present declarations,
then `UniteArray`. -/
def MergeNodeProperties (t u v w x : NodeDef) : NodeDef :=
  (dedupKeep ([t, u, v, w, x].flatMap (fun s => s.map Prod.fst))).map
    (fun p => (p, UniteArray (mkUnion ([t, u, v, w, x].filterMap
      (fun s => alookup s p)))))

/-- `MergeNodes<T, U, V, W, X>`: a mapped type over the union of all node
keys; each node merges the five property maps (`Prop<_, P, {}, {}>`
defaults a missing node to `{}`). -/
def MergeNodes (t u v w x : NodesMap) : NodesMap :=
  (dedupKeep ([t, u, v, w, x].flatMap (fun s => s.map Prod.fst))).map
    (fun p => (p, MergeNodeProperties
      ((alookup t p).getD []) ((alookup u p).getD [])
      ((alookup v p).getD []) ((alookup w p).getD [])
      ((alookup x p).getD [])))

/-- The merge of a base definition with the first four entries of an
enhancement list (the body of `ExtendsRec`'s branch `1`; `At0` … `At3`
are the positional lookups, `never`/defaulted past the end). -/
def extendsStep (d : ASTDefinition) (es : List ASTEnhancement) : ASTDefinition :=
  { statementType := dedupKeep (d.statementType
      ++ propStatementType es[0]? ++ propStatementType es[1]?
      ++ propStatementType es[2]? ++ propStatementType es[3]?)
    expressionType := dedupKeep (d.expressionType
      ++ propExpressionType es[0]? ++ propExpressionType es[1]?
      ++ propExpressionType es[2]? ++ propExpressionType es[3]?)
    nodes := MergeNodes d.nodes (propNodes es[0]?) (propNodes es[1]?)
      (propNodes es[2]?) (propNodes es[3]?) }

/-- `ExtendsRec<TDefinition, TEnhancements>`: the base case returns the
definition unchanged; otherwise merge the first four enhancements
(`Shift4` of a list shorter than four is `[]`) and recurse on the rest.
The explicit length cases make the recursion structural; the source's
single-step shape `ExtendsRec<merged, Shift4<T>>` is recovered by the
equation proved for claim C8. -/
def ExtendsRec : ASTDefinition → List ASTEnhancement → ASTDefinition
  | d, [] => d
  | d, [e0] => extendsStep d [e0]
  | d, [e0, e1] => extendsStep d [e0, e1]
  | d, [e0, e1, e2] => extendsStep d [e0, e1, e2]
  | d, e0 :: e1 :: e2 :: e3 :: rest =>
    ExtendsRec (extendsStep d [e0, e1, e2, e3]) rest

/-- `Extends<TDefinition, TEnhancement>`: a single enhancement is wrapped
into a one-element list. -/
def Extends (d : ASTDefinition) (es : List ASTEnhancement) : ASTDefinition :=
  ExtendsRec d es

/-- `Extends` applied to one enhancement (the non-list overload of the
source's conditional). -/
def ExtendsOne (d : ASTDefinition) (e : ASTEnhancement) : ASTDefinition :=
  ExtendsRec d [e]

theorem alookup_some_mem {α : Type} {l : List (String × α)} {k : String}
    {v : α} (h : alookup l k = some v) : (k, v) ∈ l := by
  induction l with
  | nil => simp [alookup] at h
  | cons a l ih =>
    obtain ⟨k1, v1⟩ := a
    rw [alookup] at h
    by_cases hk : k = k1
    · rw [if_pos hk] at h
      cases h
      subst hk
      exact .head _
    · rw [if_neg hk] at h
      exact .tail _ (ih h)

theorem mem_keys_of_alookup {α : Type} {l : List (String × α)} {k : String}
    {v : α} (h : alookup l k = some v) : k ∈ l.map Prod.fst :=
  (alookup_isSome_iff_mem l k).mp (by simp [h])

theorem flatMap_unionParts_of_nonunion (m : List Ty)
    (h : ∀ x ∈ m, ∀ ls, x ≠ .union ls) : m.flatMap unionParts = m := by
  induction m with
  | nil => rfl
  | cons a m ih =>
    have ha : unionParts a = [a] := by
      cases a <;> first | rfl | exact absurd rfl (h _ (.head _) _)
    rw [List.flatMap_cons, ha, ih (fun x hx => h x (.tail _ hx))]
    rfl

/-- For a list of non-union parts, `mkUnion` keeps exactly the
deduplicated list as its parts. -/
theorem unionParts_mkUnion_of_nonunion (m : List Ty)
    (h : ∀ x ∈ m, ∀ ls, x ≠ .union ls) :
    unionParts (mkUnion m) = dedupKeep m := by
  rw [mkUnion, flatMap_unionParts_of_nonunion m h]
  rcases hd : dedupKeep m with _ | ⟨t, _ | ⟨u, l⟩⟩
  · rfl
  · have ht : t ∈ m := (mem_dedupKeep t m).mp (by rw [hd]; exact .head _)
    cases t <;> first | rfl | exact absurd rfl (h _ ht _)
  · rfl

theorem mkUnion_single (v : Ty) (h : ∀ ls, v ≠ .union ls) :
    mkUnion [v] = v := by
  have hv : unionParts v = [v] := by
    cases v <;> first | rfl | exact absurd rfl (h _)
  rw [mkUnion]
  simp [hv, dedupKeep, dedupAux]

theorem dedupAux_all_seen {α : Type} [DecidableEq α] (l seen : List α)
    (h : ∀ x ∈ l, x ∈ seen) : dedupAux seen l = [] := by
  induction l with
  | nil => rfl
  | cons b l ih =>
    rw [dedupAux, if_pos (h b (.head _))]
    exact ih (fun x hx => h x (.tail _ hx))

theorem dedupKeep_const {α : Type} [DecidableEq α] (l : List α) (c : α)
    (hne : l ≠ []) (hc : ∀ x ∈ l, x = c) : dedupKeep l = [c] := by
  obtain ⟨a, l, rfl⟩ := List.exists_cons_of_ne_nil hne
  have ha : a = c := hc a (.head _)
  subst ha
  rw [dedupKeep, dedupAux, if_neg (by simp)]
  rw [dedupAux_all_seen l [a] (fun x hx => by simp [hc x (.tail _ hx)])]

/-- A union of identical non-union parts collapses to that part. -/
theorem mkUnion_const (m : List Ty) (c : Ty) (hne : m ≠ [])
    (hc : ∀ x ∈ m, x = c) (hnu : ∀ ls, c ≠ .union ls) :
    mkUnion m = c := by
  rw [mkUnion, flatMap_unionParts_of_nonunion m (fun x hx => (hc x hx) ▸ hnu),
    dedupKeep_const m c hne hc]

/-- `NodeAt` never produces a union type (it yields an intersection, the
unknown-type marker, or the fuel marker). -/
theorem NodeAt_ne_union (d : ASTDefinition) (fuel : Nat) (t : String)
    (ls : List Ty) : NodeAt d fuel t ≠ .union ls := by
  cases fuel <;> rw [NodeAt] <;> rcases alookup d.nodes t with _ | shape <;>
    simp [unknownType]

/-- Membership in the names computed by `ResolveNodeType`. -/
theorem mem_ResolveNodeType (b : String) (tt : Names) (d : ASTDefinition) :
    b ∈ ResolveNodeType tt d ↔
      (∃ s ∈ tt, b ∈ resolveName1 d s) ∧ b ∈ nodeKeys d := by
  simp [ResolveNodeType, mem_dedupKeep, List.mem_filter, List.mem_flatMap]

/-- Membership in the names computed by the Key-part form of
`ResolveNodeType`. -/
theorem mem_ResolveNodeTypeK (b : String) (tt : List Ty) (d : ASTDefinition) :
    b ∈ ResolveNodeTypeK tt d ↔
      (∃ m ∈ tt, b ∈ resolveKeyName1 d m) ∧ b ∈ nodeKeys d := by
  simp [ResolveNodeTypeK, mem_dedupKeep, List.mem_filter, List.mem_flatMap]

/-- On a union of string literals the Key-part form of `ResolveNodeType`
agrees with the literal form: the two are instances of the same source
alias. -/
theorem ResolveNodeTypeK_lits (tt : Names) (d : ASTDefinition) :
    ResolveNodeTypeK (tt.map .lit) d = ResolveNodeType tt d := by
  rw [ResolveNodeTypeK, ResolveNodeType, List.flatMap_map]
  rfl

/-- Membership in the key set of `NodeBody`. -/
theorem mem_NodeBodyKeys (k : String) (shape : NodeDef) :
    k ∈ NodeBodyKeys shape ↔
      (k = "type" ∨ k ∈ shape.map Prod.fst) ∧ k ∉ NodeCommonKey := by
  simp [NodeBodyKeys, mem_dedupKeep, List.mem_filter]

/-- Whether a type is syntactically a union. -/
def isUnionTy : Ty → Bool
  | .union _ => true
  | _ => false

/-- Whether a type is a `{ $ref: ... }` reference object. -/
def isRefObjTy : Ty → Bool
  | .refObj _ => true
  | _ => false

/-- Whether a type is a mutable array (the only shape `(infer E)[]`
matches). -/
def isMutArrayTy : Ty → Bool
  | .arrOf false _ => true
  | _ => false

theorem unionParts_of_not_union (v : Ty) (h : isUnionTy v = false) :
    unionParts v = [v] := by
  cases v <;> first | rfl | simp [isUnionTy] at h

theorem ne_union_of_not_union (v : Ty) (h : isUnionTy v = false) :
    ∀ ls, v ≠ .union ls := by
  cases v <;> first | exact fun ls hv => Ty.noConfusion hv | simp [isUnionTy] at h

theorem mkUnion_single_of_not_union (v : Ty) (h : isUnionTy v = false) :
    mkUnion [v] = v :=
  mkUnion_single v (ne_union_of_not_union v h)

theorem unionParts_NeverToNull_of_mem (x u : Ty) (h : x ∈ unionParts u) :
    x ∈ unionParts (NeverToNull u) := by
  cases u with
  | union l =>
    cases l with
    | nil => simp [unionParts] at h
    | cons a m => exact h
  | prim s => exact h
  | lit s => exact h
  | undefTy => exact h
  | nullTy => exact h
  | refObj p => exact h
  | arrOf r e => exact h
  | objTy ps => exact h
  | indexSig v => exact h
  | inter l => exact h
  | limit => exact h

/-- A two-node example definition: a leaf node and a node holding a
sequence of statements. -/
def DEx : ASTDefinition :=
  { nodes := [("Identifier", [("name", .prim "string")]),
              ("Program", [("body", .arrOf false (NodeRef ["Statement"]))])]
    statementType := ["Identifier"]
    expressionType := ["Identifier"] }

/-- The `Program` node definition of `DEx`. -/
def progShape : NodeDef := [("body", .arrOf false (NodeRef ["Statement"]))]

/-- A definition whose `statementType` names the meta-name `"Node"`. -/
def DMeta : ASTDefinition :=
  { nodes := [("Identifier", [("name", .prim "string")])]
    statementType := ["Node"]
    expressionType := ["Identifier"] }

/-- A definition with a node that redeclares `type` and `range` itself. -/
def DTyped : ASTDefinition :=
  { nodes := [("Weird", [("type", .lit "Odd"), ("range", .prim "boolean")])]
    statementType := ["Weird"]
    expressionType := ["Weird"] }

/-- An enhancement adding a scalar property and a sequence property to
`Identifier`. -/
def E1 : ASTEnhancement :=
  { nodes := some [("Identifier", [("extra", .prim "boolean"),
                                   ("stuff", .arrOf false (.prim "A"))])]
    statementType := none
    expressionType := none }

/-- A second enhancement adding a different scalar property and the same
sequence property with a different element type. -/
def E2 : ASTEnhancement :=
  { nodes := some [("Identifier", [("other", .prim "number"),
                                   ("stuff", .arrOf false (.prim "B"))])]
    statementType := none
    expressionType := none }

/-- If every requested name is plain (not a meta-name), the conditional of
`ResolveNodeType` maps each name to itself. -/
theorem flatMap_resolveName1_of_plain (d : ASTDefinition) (tt : Names)
    (h : ∀ s ∈ tt, s ∉ metaNames) : tt.flatMap (resolveName1 d) = tt := by
  induction tt with
  | nil => rfl
  | cons s tt ih =>
    have hs := h s (.head _)
    simp only [metaNames, List.mem_cons, List.mem_singleton, not_or] at hs
    have h1 : resolveName1 d s = [s] := by
      simp [resolveName1, hs.1, hs.2.1, hs.2.2]
    rw [List.flatMap_cons, h1, ih (fun x hx => h x (.tail _ hx))]
    rfl

/-- C6: applying the extension merger (`Extends` / `ExtendsRec`) to a base
definition and the empty enhancement list yields the base definition
unchanged. -/
theorem C6_extends_empty (d : ASTDefinition) :
    Extends d [] = d ∧ ExtendsRec d [] = d :=
  ⟨rfl, rfl⟩

/-- C8: `ExtendsRec` reaches its base case exactly on the empty enhancement
list, and otherwise performs one recursive step that merges the first four
enhancements into the base and recurses on the list with those four
removed; the remaining list is strictly shorter, so the recursion
terminates (the Lean definition is total). -/
theorem C8_four_per_step (d : ASTDefinition) (es : List ASTEnhancement) :
    (es = [] → ExtendsRec d es = d) ∧
    (es ≠ [] →
      ExtendsRec d es = ExtendsRec (extendsStep d (es.take 4)) (es.drop 4) ∧
      (es.drop 4).length < es.length) := by
  constructor
  · rintro rfl
    rfl
  · intro h
    rcases es with _ | ⟨e0, _ | ⟨e1, _ | ⟨e2, _ | ⟨e3, rest⟩⟩⟩⟩
    · exact absurd rfl h
    · exact ⟨rfl, by simp⟩
    · exact ⟨rfl, by simp⟩
    · exact ⟨rfl, by simp⟩
    · refine ⟨rfl, ?_⟩
      simp only [List.drop_succ_cons, List.drop_zero, List.length_cons]
      omega

/-- C8 witness: the one-step equation and the base case at concrete
inputs. -/
theorem C8_four_per_step_witness :
    ExtendsRec DEx [E1] = ExtendsRec (extendsStep DEx ([E1].take 4)) ([E1].drop 4) ∧
    ([E1].drop 4).length < [E1].length ∧
    ExtendsRec DEx [] = DEx :=
  ⟨((C8_four_per_step DEx [E1]).2 (by simp)).1,
   ((C8_four_per_step DEx [E1]).2 (by simp)).2,
   (C8_four_per_step DEx []).1 rfl⟩

/-- C5: resolving the meta-name `"Node"` yields exactly the union, over
every key of `nodes`, of the resolved node type for that key.  (`nodes` is
an object type, so its keys are distinct; the `Nodup` hypothesis states
that well-formedness for the list model.) -/
theorem C5_resolve_node_is_union_of_keys (d : ASTDefinition) (fuel : Nat)
    (h : (nodeKeys d).Nodup) :
    ResolveNode d fuel ["Node"] = Node d fuel (nodeKeys d) := by
  rw [ResolveNode]
  congr 1
  rw [ResolveNodeType]
  have h1 : ["Node"].flatMap (resolveName1 d) = nodeKeys d := by
    simp [resolveName1]
  rw [h1, List.filter_eq_self.mpr (fun a ha => by simpa using ha),
    dedupKeep_eq_self _ h]

/-- C5 witness. -/
theorem C5_resolve_node_is_union_of_keys_witness :
    ResolveNode DEx 1 ["Node"] = Node DEx 1 (nodeKeys DEx) :=
  C5_resolve_node_is_union_of_keys DEx 1 (by decide)

/-- C4 counterexample: for a definition whose `statementType` is the
meta-name `"Node"` (not itself a node key), resolving `"Statement"`
intersects `"Node"` away to `never`, while resolving `statementType`
directly expands `"Node"` to all node keys — the two results differ, so
the claim fails for this definition. -/
theorem C4_counterexample :
    ResolveNode DMeta 1 ["Statement"] ≠ ResolveNode DMeta 1 DMeta.statementType := by
  decide

/-- C4 (amended): resolving `"Statement"` equals resolving
`D.statementType` directly provided no member of `statementType` is a
meta-name, and likewise for `"Expression"` / `expressionType`. -/
theorem C4_meta_names_resolve_designators (d : ASTDefinition) (fuel : Nat) :
    ((∀ s ∈ d.statementType, s ∉ metaNames) →
      ResolveNode d fuel ["Statement"] = ResolveNode d fuel d.statementType) ∧
    ((∀ s ∈ d.expressionType, s ∉ metaNames) →
      ResolveNode d fuel ["Expression"] = ResolveNode d fuel d.expressionType) := by
  constructor
  · intro h
    rw [ResolveNode, ResolveNode]
    congr 1
    rw [ResolveNodeType, ResolveNodeType,
      flatMap_resolveName1_of_plain d _ h]
    have h1 : ["Statement"].flatMap (resolveName1 d) = d.statementType := by
      simp [resolveName1]
    rw [h1]
  · intro h
    rw [ResolveNode, ResolveNode]
    congr 1
    rw [ResolveNodeType, ResolveNodeType,
      flatMap_resolveName1_of_plain d _ h]
    have h1 : ["Expression"].flatMap (resolveName1 d) = d.expressionType := by
      simp [resolveName1]
    rw [h1]

/-- C4 witness: at `DEx` both designators are plain names and the two
resolutions agree. -/
theorem C4_meta_names_resolve_designators_witness :
    ResolveNode DEx 1 ["Statement"] = ResolveNode DEx 1 DEx.statementType ∧
    ResolveNode DEx 1 ["Expression"] = ResolveNode DEx 1 DEx.expressionType :=
  ⟨(C4_meta_names_resolve_designators DEx 1).1 (by decide),
   (C4_meta_names_resolve_designators DEx 1).2 (by decide)⟩

theorem ResolveNodeRef1_of_not_ref (R : String → Ty) (d : ASTDefinition)
    (v : Ty) (h : isRefObjTy v = false) : ResolveNodeRef1 R d v = v := by
  cases v <;> first | rfl | simp [isRefObjTy] at h

theorem NodeProperty1_of_not_mutarray (R : String → Ty) (d : ASTDefinition)
    (v : Ty) (h : isMutArrayTy v = false) :
    NodeProperty1 R d v = ResolveNodeRef1 R d v := by
  cases v <;> try rfl
  case arrOf ro e =>
    cases ro with
    | false => simp [isMutArrayTy] at h
    | true => rfl

/-- C7: a symbolic reference whose payload is not a valid name — no part of
it is assignable to `Key = string | number | symbol`, i.e. neither a
string literal nor the full `string`/`number`/`symbol` type — resolves to
the unchanged reference object, and a value that is neither a symbolic
reference nor a union (nor, for `NodeProperty`, a sequence) is returned
unchanged by reference resolution. -/
theorem C7_malformed_refs_unchanged (d : ASTDefinition) (fuel : Nat)
    (p v : Ty) :
    (unionParts p ≠ [] → (∀ m ∈ unionParts p, isKeyTy m = false) →
      ResolveNodeRef d fuel (.refObj p) = .refObj p) ∧
    (isRefObjTy v = false → isUnionTy v = false →
      ResolveNodeRef d fuel v = v) ∧
    (isRefObjTy v = false → isUnionTy v = false → isMutArrayTy v = false →
      NodeProperty d fuel v = v) := by
  refine ⟨?_, ?_, ?_⟩
  · intro hne hlit
    rw [ResolveNodeRef, ResolveNodeRefW]
    have h1 : unionParts (Ty.refObj p) = [.refObj p] := rfl
    rw [h1, List.map_cons, List.map_nil]
    have h2 : ResolveNodeRef1 (fun s => NodeAt d fuel s) d (.refObj p) =
        .refObj p := by
      rw [ResolveNodeRef1]
      refine mkUnion_const _ (.refObj p) ?_ ?_ (fun ls h => Ty.noConfusion h)
      · simpa using hne
      · intro x hx
        obtain ⟨m, hm, rfl⟩ := List.mem_map.mp hx
        rw [if_neg (by simp [hlit m hm])]
    rw [h2]
    exact mkUnion_single _ (fun ls h => Ty.noConfusion h)
  · intro h1 h2
    rw [ResolveNodeRef, ResolveNodeRefW, unionParts_of_not_union v h2,
      List.map_cons, List.map_nil, ResolveNodeRef1_of_not_ref _ _ _ h1]
    exact mkUnion_single_of_not_union v h2
  · intro h1 h2 h3
    rw [NodeProperty, NodePropertyW, unionParts_of_not_union v h2,
      List.map_cons, List.map_nil, NodeProperty1_of_not_mutarray _ _ _ h3,
      ResolveNodeRef1_of_not_ref _ _ _ h1]
    exact mkUnion_single_of_not_union v h2

/-- C7 witness: a reference with a `boolean` payload passes through
unchanged; a plain `string` value is untouched by `ResolveNodeRef` and by
`NodeProperty`. -/
theorem C7_malformed_refs_unchanged_witness :
    ResolveNodeRef DEx 0 (.refObj (.prim "boolean")) = .refObj (.prim "boolean") ∧
    ResolveNodeRef DEx 0 (.prim "string") = .prim "string" ∧
    NodeProperty DEx 0 (.prim "string") = .prim "string" :=
  ⟨(C7_malformed_refs_unchanged DEx 0 (.prim "boolean") (.prim "string")).1
      (by decide) (by decide),
   (C7_malformed_refs_unchanged DEx 0 (.prim "boolean") (.prim "string")).2.1
      rfl rfl,
   (C7_malformed_refs_unchanged DEx 0 (.prim "boolean") (.prim "string")).2.2
      rfl rfl rfl⟩

/-- The `T extends Key` test is not restricted to literals: a reference
payload of the full `string` type resolves (at `DEx`) to the same type as
resolving the meta-name `"Node"` — the union of all nodes — exactly as
`string & keyof nodes = keyof nodes` does in the source. -/
theorem resolveNodeRef_full_string_payload :
    ResolveNodeRef DEx 1 (.refObj (.prim "string")) = ResolveNode DEx 1 ["Node"] := by
  decide

/-- A reference payload of the full `number` type passes `T extends Key`
but is annihilated by the `& string` intersection inside `ResolveNodeType`,
collapsing to `never` — not to the unchanged reference object. -/
theorem resolveNodeRef_full_number_payload :
    ResolveNodeRef DEx 1 (.refObj (.prim "number")) = .union [] := by
  decide

/-- A node definition with a `{ $ref: string }` property references every
node type: its `ChildNodeType` is all of `keyof nodes`. -/
theorem childNodeType_full_string_payload :
    ChildNodeType [("x", .refObj (.prim "string"))] DEx = nodeKeys DEx := by
  decide

/-- C1 counterexample: for the name `"Bogus"` (absent from `DEx.nodes`,
not a meta-name) `Node` yields the unknown-type marker, but `ExtractNode`
yields `never` (the empty union), not the marker — refuting the claim that
both query paths produce the marker. -/
theorem C1_counterexample :
    Node DEx 2 ["Bogus"] = unknownType "Bogus" ∧
    ExtractNode DEx 2 "Bogus" = .union [] ∧
    ExtractNode DEx 2 "Bogus" ≠ unknownType "Bogus" := by
  refine ⟨rfl, rfl, by decide⟩

/-- C1 (amended): for a name `t` absent from `nodes`, `Node` yields the
distinguishable unknown-type marker carrying `t` as a literal; `ExtractNode`
instead filters the full node union by the `type` discriminant, so for a
non-meta absent name whose literal matches no node's `type` tag it yields
`never`, not the marker. -/
theorem C1_unknown_name_marker (d : ASTDefinition) (fuel : Nat) (t : String)
    (hmiss : alookup d.nodes t = none) :
    NodeAt d fuel t = unknownType t ∧
    Node d fuel [t] = unknownType t ∧
    (t ∉ metaNames →
      (∀ k ∈ nodeKeys d, tyMember? (NodeAt d fuel k) "type" ≠ some (.lit t)) →
      ExtractNode d fuel t = .union []) := by
  have hna : NodeAt d fuel t = unknownType t := by
    cases fuel <;> simp [NodeAt, hmiss]
  refine ⟨hna, ?_, ?_⟩
  · rw [Node, List.map_cons, List.map_nil, hna]
    exact mkUnion_single _ (fun ls h => Ty.noConfusion h)
  · intro hmeta htags
    rw [ExtractNode, if_neg hmeta, extractByTag]
    have hparts : unionParts (ResolveNode d fuel ["Node"]) =
        dedupKeep ((ResolveNodeType ["Node"] d).map (NodeAt d fuel)) := by
      rw [ResolveNode, Node]
      exact unionParts_mkUnion_of_nonunion _ (fun x hx ls => by
        obtain ⟨k, hk, rfl⟩ := List.mem_map.mp hx
        exact NodeAt_ne_union d fuel k ls)
    rw [hparts, List.filter_eq_nil_iff.mpr ?_]
    · rfl
    · intro x hx
      obtain ⟨k, hk, rfl⟩ := List.mem_map.mp ((mem_dedupKeep _ _).mp hx)
      have hkk : k ∈ nodeKeys d := ((mem_ResolveNodeType k _ d).mp hk).2
      simpa using htags k hkk

/-- C1 witness (for the amended statement). -/
theorem C1_unknown_name_marker_witness :
    NodeAt DEx 2 "Bogus" = unknownType "Bogus" ∧
    ExtractNode DEx 2 "Bogus" = .union [] := by
  have h := C1_unknown_name_marker DEx 2 "Bogus" (by decide)
  exact ⟨h.1, h.2.2 (by decide) (by decide)⟩

/-- C2: parent inference is symmetric with reference declaration: if node
`A` has a property whose reference resolves to node `B`, then `A` is among
`B`'s parent-type names and the resolved node for `A` is a part of `B`'s
computed parent; and if no node definition references `B`, `B`'s parent is
the explicit `null` (not the unknown marker). -/
theorem C2_parent_symmetry (d : ASTDefinition) (fuel : Nat)
    (A B prop : String) (shapeA : NodeDef) (v : Ty) :
    (alookup d.nodes A = some shapeA → alookup shapeA prop = some v →
      B ∈ ResolveNodeTypeK (NodeRefType v) d →
      A ∈ ParentNodeType B d ∧
      NodeAt d fuel A ∈ unionParts (ParentNode d fuel B)) ∧
    ((∀ k ∈ nodeKeys d, B ∉ ChildNodeType ((alookup d.nodes k).getD []) d) →
      ParentNode d fuel B = .nullTy) := by
  constructor
  · intro hA hp href
    have hchild : B ∈ ChildNodeType shapeA d := by
      rw [ChildNodeType]
      rw [mem_ResolveNodeTypeK] at href ⊢
      obtain ⟨⟨s, hs, hres⟩, hBk⟩ := href
      exact ⟨⟨s, List.mem_flatMap.mpr ⟨(prop, v), alookup_some_mem hp, hs⟩, hres⟩, hBk⟩
    have hmemA : A ∈ ParentNodeType B d := by
      rw [ParentNodeType, List.mem_filter]
      refine ⟨(mem_dedupKeep _ _).mpr (mem_keys_of_alookup hA), ?_⟩
      rw [hA]
      simpa using hchild
    refine ⟨hmemA, ?_⟩
    rw [ParentNode, ParentNodeW]
    apply unionParts_NeverToNull_of_mem
    rw [unionParts_mkUnion_of_nonunion _ (fun x hx ls => by
      obtain ⟨k, hk, rfl⟩ := List.mem_map.mp hx
      exact NodeAt_ne_union d fuel k ls)]
    exact (mem_dedupKeep _ _).mpr (List.mem_map.mpr ⟨A, hmemA, rfl⟩)
  · intro hnone
    rw [ParentNode, ParentNodeW]
    have h0 : ParentNodeType B d = [] := by
      rw [ParentNodeType, List.filter_eq_nil_iff]
      intro k hk
      simpa using hnone k ((mem_dedupKeep _ _).mp hk)
    rw [h0]
    rfl

/-- C2 witness: in `DEx`, `Program.body` references `"Statement"` which
resolves to `Identifier`, so `Identifier`'s parent includes the `Program`
node; nothing references `Program`, so its parent is `null`. -/
theorem C2_parent_symmetry_witness :
    ("Program" ∈ ParentNodeType "Identifier" DEx ∧
      NodeAt DEx 1 "Program" ∈ unionParts (ParentNode DEx 1 "Identifier")) ∧
    ParentNode DEx 1 "Program" = .nullTy :=
  ⟨(C2_parent_symmetry DEx 1 "Program" "Identifier" "body" progShape
      (.arrOf false (NodeRef ["Statement"]))).1 (by decide) (by decide) (by decide),
   (C2_parent_symmetry DEx 1 "X" "Program" "y" [] .undefTy).2 (by decide)⟩

/-- Member access on the three-part intersection produced by `Node` for a
known node: declared properties win (both declaring parts are intersected);
the index signature answers only otherwise. -/
theorem tyMember_inter3 (c b : List (String × Ty)) (k : String) :
    tyMember? (.inter [.objTy c, .objTy b, .indexSig .undefTy]) k =
      match alookup c k, alookup b k with
      | some x, some y => some (.inter [x, y])
      | some x, none => some x
      | none, some y => some y
      | none, none => some .undefTy := by
  rcases h1 : alookup c k with _ | x <;> rcases h2 : alookup b k with _ | y <;>
    simp [tyMember?, objDeclared?, indexValue?, h1, h2, mkInter]

/-- C9: every resolved node shape tolerates lookup of any string key: a key
that is neither a declared property nor one of the common fields hits the
fallback index signature and yields `undefined` (not a missing member). -/
theorem C9_fallback_lookup_undefined (d : ASTDefinition) (fuel : Nat)
    (N k : String) (shape : NodeDef)
    (h : alookup d.nodes N = some shape)
    (hk : k ∉ shape.map Prod.fst) (hk2 : k ≠ "type")
    (hk3 : k ≠ "range") (hk4 : k ≠ "loc") (hk5 : k ≠ "parent") :
    tyMember? (NodeAt d (fuel + 1) N) k = some .undefTy := by
  have hbody : k ∉ NodeBodyKeys shape := by
    simp [mem_NodeBodyKeys, hk, hk2]
  have hstep : NodeAt d (fuel + 1) N =
      .inter [NodeCommonW (fun s => NodeAt d fuel s) d N,
              NodeBodyW (fun s => NodeAt d fuel s) d N shape, NodeFallback] := by
    simp [NodeAt, h]
  rw [hstep, NodeCommonW, NodeBodyW, NodeFallback, tyMember_inter3,
    alookup_map_self, if_neg hbody]
  simp [alookup, hk3, hk4, hk5]

/-- C10: when a node definition itself declares `type`, the resolved node's
`type` member is that declared value after reference resolution (not the
automatic tag); the reserved keys `range`, `loc` and `parent` are excluded
from the body, so the common fields always win for them. -/
theorem C10_type_override_reserved_keys (d : ASTDefinition) (fuel : Nat)
    (N : String) (shape : NodeDef) (h : alookup d.nodes N = some shape) :
    (∀ v, alookup shape "type" = some v →
      tyMember? (NodeAt d (fuel + 1) N) "type" = some (NodeProperty d fuel v)) ∧
    tyMember? (NodeAt d (fuel + 1) N) "range" = some (.prim "Range") ∧
    tyMember? (NodeAt d (fuel + 1) N) "loc" = some (.prim "Location") ∧
    tyMember? (NodeAt d (fuel + 1) N) "parent" = some (ParentNode d fuel N) := by
  have htype : "type" ∈ NodeBodyKeys shape := by
    simp [mem_NodeBodyKeys, NodeCommonKey]
  have hrange : "range" ∉ NodeBodyKeys shape := by
    simp [mem_NodeBodyKeys, NodeCommonKey]
  have hloc : "loc" ∉ NodeBodyKeys shape := by
    simp [mem_NodeBodyKeys, NodeCommonKey]
  have hparent : "parent" ∉ NodeBodyKeys shape := by
    simp [mem_NodeBodyKeys, NodeCommonKey]
  have hstep : NodeAt d (fuel + 1) N =
      .inter [NodeCommonW (fun s => NodeAt d fuel s) d N,
              NodeBodyW (fun s => NodeAt d fuel s) d N shape, NodeFallback] := by
    simp [NodeAt, h]
  refine ⟨?_, ?_, ?_, ?_⟩
  · intro v hv
    rw [hstep, NodeCommonW, NodeBodyW, NodeFallback, tyMember_inter3,
      alookup_map_self, if_pos htype, hv]
    simp [alookup, NodeProperty]
  · rw [hstep, NodeCommonW, NodeBodyW, NodeFallback, tyMember_inter3,
      alookup_map_self, if_neg hrange]
    simp [alookup]
  · rw [hstep, NodeCommonW, NodeBodyW, NodeFallback, tyMember_inter3,
      alookup_map_self, if_neg hloc]
    simp [alookup]
  · rw [hstep, NodeCommonW, NodeBodyW, NodeFallback, tyMember_inter3,
      alookup_map_self, if_neg hparent]
    simp [alookup, ParentNode]

/-- C9 witness. -/
theorem C9_fallback_lookup_undefined_witness :
    tyMember? (NodeAt DEx 1 "Identifier") "wibble" = some .undefTy :=
  C9_fallback_lookup_undefined DEx 0 "Identifier" "wibble"
    [("name", .prim "string")] rfl (by decide) (by decide) (by decide)
    (by decide) (by decide)

/-- C10 witness: `DTyped`'s node declares both `type` and `range`; the
resolved `type` is the declared literal after resolution, while `range`
keeps the common field's type. -/
theorem C10_type_override_reserved_keys_witness :
    tyMember? (NodeAt DTyped 1 "Weird") "type" =
      some (NodeProperty DTyped 0 (.lit "Odd")) ∧
    tyMember? (NodeAt DTyped 1 "Weird") "range" = some (.prim "Range") ∧
    tyMember? (NodeAt DTyped 1 "Weird") "parent" =
      some (ParentNode DTyped 0 "Weird") :=
  ⟨(C10_type_override_reserved_keys DTyped 0 "Weird"
      [("type", .lit "Odd"), ("range", .prim "boolean")] rfl).1 (.lit "Odd") rfl,
   (C10_type_override_reserved_keys DTyped 0 "Weird"
      [("type", .lit "Odd"), ("range", .prim "boolean")] rfl).2.1,
   (C10_type_override_reserved_keys DTyped 0 "Weird"
      [("type", .lit "Odd"), ("range", .prim "boolean")] rfl).2.2.2⟩

theorem map_fst_keyed_map {α : Type} (ks : List String) (f : String → α) :
    (ks.map fun p => (p, f p)).map Prod.fst = ks := by
  induction ks with
  | nil => rfl
  | cons a l ih => simp [ih]

/-- Two distinct mutable array declarations merge into one mutable array
whose element type is the union of the element types. -/
theorem uniteArray_two_mut_arrays (a b : Ty) (hab : a ≠ b) :
    UniteArray (mkUnion [.arrOf false a, .arrOf false b]) =
      .arrOf false (mkUnion [a, b]) := by
  have hne : ¬(Ty.arrOf false b ∈ [Ty.arrOf false a]) := by
    intro hmem
    exact hab (Ty.arrOf.inj (List.mem_singleton.mp hmem)).2.symm
  have h1 : mkUnion [Ty.arrOf false a, Ty.arrOf false b] =
      .union [.arrOf false a, .arrOf false b] := by
    rw [mkUnion]
    have h2 : [Ty.arrOf false a, Ty.arrOf false b].flatMap unionParts =
        [Ty.arrOf false a, Ty.arrOf false b] := rfl
    rw [h2, dedupKeep, dedupAux, if_neg (by simp), dedupAux, if_neg hne,
      dedupAux]
  rw [h1, UniteArray]
  rfl

/-- C3: merging two enhancements that each add a property to an existing
node type yields a node definition containing both properties; and when
both declare the same sequence-typed property with different element types
the merge is a single sequence of the union of the element types (never a
union of two sequence types). -/
theorem C3_merge_two_enhancements (d : ASTDefinition) (e1 e2 : ASTEnhancement)
    (n : String) (m1 m2 : NodesMap) (s1 s2 : NodeDef) :
    (e1.nodes = some m1 → e2.nodes = some m2 →
      alookup m1 n = some s1 → alookup m2 n = some s2 →
      ∀ p1 ∈ s1.map Prod.fst, ∀ p2 ∈ s2.map Prod.fst,
      ∃ s, alookup (Extends d [e1, e2]).nodes n = some s ∧
        p1 ∈ s.map Prod.fst ∧ p2 ∈ s.map Prod.fst) ∧
    (∀ p a b, e1.nodes = some m1 → e2.nodes = some m2 →
      alookup m1 n = some s1 → alookup m2 n = some s2 →
      alookup ((alookup d.nodes n).getD []) p = none →
      alookup s1 p = some (.arrOf false a) → alookup s2 p = some (.arrOf false b) →
      a ≠ b →
      ∃ s, alookup (Extends d [e1, e2]).nodes n = some s ∧
        alookup s p = some (.arrOf false (mkUnion [a, b]))) := by
  have hnodes : ∀ (hm1 : e1.nodes = some m1) (hm2 : e2.nodes = some m2),
      (Extends d [e1, e2]).nodes = MergeNodes d.nodes m1 m2 [] [] := by
    intro hm1 hm2
    show (extendsStep d [e1, e2]).nodes = _
    rw [extendsStep]
    simp [propNodes, hm1, hm2]
  have hlook : ∀ (hm1 : e1.nodes = some m1) (hm2 : e2.nodes = some m2)
      (h1 : alookup m1 n = some s1) (h2 : alookup m2 n = some s2),
      alookup (Extends d [e1, e2]).nodes n =
        some (MergeNodeProperties ((alookup d.nodes n).getD []) s1 s2 [] []) := by
    intro hm1 hm2 h1 h2
    rw [hnodes hm1 hm2, MergeNodes, alookup_map_self, if_pos ?_]
    · rw [h1, h2]
      rfl
    · rw [mem_dedupKeep]
      exact List.mem_flatMap.mpr ⟨m1, by simp, mem_keys_of_alookup h1⟩
  constructor
  · intro hm1 hm2 h1 h2 p1 hp1 p2 hp2
    refine ⟨_, hlook hm1 hm2 h1 h2, ?_, ?_⟩
    · rw [MergeNodeProperties, map_fst_keyed_map, mem_dedupKeep]
      exact List.mem_flatMap.mpr ⟨s1, by simp, hp1⟩
    · rw [MergeNodeProperties, map_fst_keyed_map, mem_dedupKeep]
      exact List.mem_flatMap.mpr ⟨s2, by simp, hp2⟩
  · intro p a b hm1 hm2 h1 h2 h0 hpa hpb hab
    refine ⟨_, hlook hm1 hm2 h1 h2, ?_⟩
    rw [MergeNodeProperties, alookup_map_self, if_pos ?_]
    · have hcollect : [(alookup d.nodes n).getD [], s1, s2, [],
          ([] : NodeDef)].filterMap (fun s => alookup s p) =
          [.arrOf false a, .arrOf false b] := by
        simp [List.filterMap_cons, h0, hpa, hpb, alookup]
      rw [hcollect, uniteArray_two_mut_arrays a b hab]
    · rw [mem_dedupKeep]
      exact List.mem_flatMap.mpr ⟨s1, by simp, mem_keys_of_alookup hpa⟩

/-- C3 witness: merging `E1` and `E2` onto `DEx` gives an `Identifier`
definition with both new properties, and a single `stuff` sequence whose
element type is the union of the two declared element types. -/
theorem C3_merge_two_enhancements_witness :
    (∃ s, alookup (Extends DEx [E1, E2]).nodes "Identifier" = some s ∧
      "extra" ∈ s.map Prod.fst ∧ "other" ∈ s.map Prod.fst) ∧
    (∃ s, alookup (Extends DEx [E1, E2]).nodes "Identifier" = some s ∧
      alookup s "stuff" =
        some (.arrOf false (mkUnion [.prim "A", .prim "B"]))) := by
  have h := C3_merge_two_enhancements DEx E1 E2 "Identifier"
    [("Identifier", [("extra", .prim "boolean"),
                     ("stuff", .arrOf false (.prim "A"))])]
    [("Identifier", [("other", .prim "number"),
                     ("stuff", .arrOf false (.prim "B"))])]
    [("extra", .prim "boolean"), ("stuff", .arrOf false (.prim "A"))]
    [("other", .prim "number"), ("stuff", .arrOf false (.prim "B"))]
  exact ⟨h.1 rfl rfl rfl rfl "extra" (by decide) "other" (by decide),
    h.2 "stuff" (.prim "A") (.prim "B") rfl rfl rfl rfl (by decide) rfl rfl
      (by decide)⟩
